import Mathlib

/-!
# Verification of the Figma–Sheets reconciliation pipeline

Shallow embedding of the repository's core algorithms:

* `walkNodes` (utils/traverse.js) — generic pre-order DFS with a callback,
  modelled as explicit state passing (`walkNodesCb`) together with its
  pure visit trace (`preorderOf`);
* `getFrames` (figma.js) — frame extraction with optional page scoping;
* `buildNodePatches` — both the earlier revision (patch list only) and the
  later revision (patch list plus ranked matched-frame ids);
* the PDF-export assembly step of server.js (`findFrameIdByName`,
  `assembleOrder`).

JavaScript objects used as string-keyed dictionaries (`sheetMap`, a sheet
row, `FIELD_MAP`) are modelled as association lists of own enumerable
properties: property lookup is the first match (object keys are unique),
`Object.keys` order is the list order, and a missing property is `none`
(JS `undefined`).  `Map.set` overwrites, so the order map built with
`sheetOrderMap.set(key.trim(), order++)` is modelled by a last-match
lookup (`lastTrimIndex`).  `Array.prototype.sort` with the comparator
`(a, b) => a.sheetIndex - b.sheetIndex` is stable and sorts by
`sheetIndex` (ES2019), modelled by a stable insertion sort (`sortMeta`).
-/

/-- A Figma document node: `{ id, type, name, children }`.  The `type`
discriminant is kept as the raw string the source compares against
(`"CANVAS"`, `"FRAME"`, `"TEXT"`, …). -/
inductive Node : Type where
  | mk (id : String) (type : String) (name : String) (children : List Node)

def Node.id : Node → String
  | .mk i _ _ _ => i

def Node.type : Node → String
  | .mk _ t _ _ => t

def Node.name : Node → String
  | .mk _ _ n _ => n

def Node.children : Node → List Node
  | .mk _ _ _ cs => cs

mutual

/-- `walkNodes(node, callback)` from utils/traverse.js, on a non-null node:
run the callback on the node itself, then recurse into each child in its
original list order.  The callback's side effects are modelled by explicit
state passing. -/
def walkNodesCb {σ : Type u} (cb : σ → Node → σ) (s : σ) : Node → σ
  | .mk i t nm cs => walkListCb cb (cb s (.mk i t nm cs)) cs

/-- The `for (const child of node.children)` loop of `walkNodes`. -/
def walkListCb {σ : Type u} (cb : σ → Node → σ) (s : σ) : List Node → σ
  | [] => s
  | c :: cs => walkListCb cb (walkNodesCb cb s c) cs

end

/-- `walkNodes` including the `if (!node) return;` guard: a null root is a
no-op. -/
def walkNodesOpt {σ : Type u} (cb : σ → Node → σ) (s : σ) : Option Node → σ
  | none => s
  | some n => walkNodesCb cb s n

mutual

/-- The pre-order visit trace of `walkNodes`: the sequence of nodes the
callback is invoked on. -/
def preorderOf : Node → List Node
  | .mk i t nm cs => .mk i t nm cs :: preorderList cs

def preorderList : List Node → List Node
  | [] => []
  | c :: cs => preorderOf c ++ preorderList cs

end

mutual

/-- Running the callback traversal is folding the callback over the
pre-order trace. -/
theorem walkNodesCb_eq_foldl {σ : Type u} (cb : σ → Node → σ) (s : σ)
    (n : Node) : walkNodesCb cb s n = (preorderOf n).foldl cb s := by
  cases n with
  | mk i t nm cs =>
    rw [walkNodesCb, preorderOf, List.foldl_cons]
    exact walkListCb_eq_foldl cb (cb s (.mk i t nm cs)) cs

theorem walkListCb_eq_foldl {σ : Type u} (cb : σ → Node → σ) (s : σ)
    (l : List Node) : walkListCb cb s l = (preorderList l).foldl cb s := by
  cases l with
  | nil => rw [walkListCb, preorderList, List.foldl_nil]
  | cons c cs =>
    rw [walkListCb, walkListCb_eq_foldl cb (walkNodesCb cb s c) cs,
      walkNodesCb_eq_foldl cb s c, preorderList, List.foldl_append]

end

theorem preorderList_eq_flatMap (l : List Node) :
    preorderList l = l.flatMap preorderOf := by
  induction l with
  | nil => rfl
  | cons c cs ih => rw [preorderList, List.flatMap_cons, ih]

example : preorderOf (Node.mk "a" "t" "n" [Node.mk "b" "u" "m" []]) =
    [Node.mk "a" "t" "n" [Node.mk "b" "u" "m" []], Node.mk "b" "u" "m" []] := rfl

/-! ## Sheet data model (sheets.js / JS objects as association lists) -/

/-- First-match lookup in an association list: JS own-property access
`obj[key]` on a string-keyed dictionary whose keys are unique, with `none`
for JS `undefined`. -/
def assocLookup {α : Type} : List (String × α) → String → Option α
  | [], _ => none
  | (k, v) :: rest, key => if k = key then some v else assocLookup rest key

/-- JS `String.prototype.trim`: strip leading and trailing whitespace,
implemented over the character list.  (Lean's own `String.trim` is defined
by well-founded recursion on byte positions and does not evaluate by
kernel reduction, which concrete instances below need.) -/
def jsTrim (s : String) : String :=
  ⟨((s.data.dropWhile Char.isWhitespace).reverse.dropWhile Char.isWhitespace).reverse⟩

/-- One sheet row as produced by `getSheetMap`: its string fields
(`company`, `productName`, `shippingFee`, …) as own enumerable
properties.  `row[f] !== undefined` is `(r.get f).isSome`. -/
structure Row where
  fields : List (String × String)
deriving Repr, DecidableEq

def Row.get (r : Row) (k : String) : Option String := assocLookup r.fields k

/-- The sheet map `getSheetMap` returns: an ordered string-keyed object,
list order = `Object.keys` insertion order. -/
abbrev SheetMap := List (String × Row)

def lookupRow (m : SheetMap) (key : String) : Option Row := assocLookup m key

def sheetKeys (m : SheetMap) : List String := m.map Prod.fst

/-- `Number.MAX_SAFE_INTEGER`. -/
def MAX_SAFE_INTEGER : Nat := 2 ^ 53 - 1

/-- Index lookup in the `Map` built by
`for (const key of Object.keys(sheetMap)) sheetOrderMap.set(key.trim(), order++)`:
`Map.set` overwrites, so `get` returns the index of the *last* key whose
trim equals `name`. -/
def lastTrimIndex : List String → Nat → String → Option Nat
  | [], _, _ => none
  | k :: ks, i, name =>
    match lastTrimIndex ks (i + 1) name with
    | some j => some j
    | none => if (jsTrim k) = name then some i else none

/-- `sheetOrderMap.get name` of figma.js (current revision). -/
def sheetOrderGet (m : SheetMap) (name : String) : Option Nat :=
  lastTrimIndex (sheetKeys m) 0 name

/-! ## Frames and patches (figma.js, current revision = later revision) -/

/-- A frame entry `{ id: node.id, name: node.name, node: node }` pushed by
`getFrames`. -/
structure Frame where
  id : String
  name : String
  node : Node

/-- A text-update patch. -/
structure Patch where
  nodeId : String
  frameName : String
  layerName : String
  newText : String
deriving Repr, DecidableEq

/-- The static `FIELD_MAP` of the current `buildNodePatches`. -/
def FIELD_MAP : List (String × String) :=
  [("#product_name", "productName"),
   ("#shipping_fee", "shippingFee"),
   ("#supply_price_vat", "supplyPriceVat"),
   ("#group_price", "groupPrice"),
   ("#online_price", "onlinePrice")]

/-- Body of the `walkNodes` callback in the current `buildNodePatches`:
skip non-TEXT nodes; look the layer name up in `FIELD_MAP`; emit a patch
when the mapped field is defined on the matched row. -/
def textPatch (frameName : String) (row : Row) (n : Node) : Option Patch :=
  if n.type ≠ "TEXT" then none
  else
    match assocLookup FIELD_MAP n.name with
    | none => none
    | some fieldName =>
      match row.get fieldName with
      | none => none
      | some v => some ⟨n.id, frameName, n.name, v⟩

/-- `walkNodes(frame.node, cb)` with the patch-pushing callback. -/
def framePatches (frameName : String) (row : Row) (root : Node) : List Patch :=
  walkNodesCb
    (fun acc n =>
      match textPatch frameName row n with
      | some p => acc ++ [p]
      | none => acc)
    [] root

/-- One entry of `matchedMeta`: `{ frameId, frameName, sheetIndex }`. -/
structure Meta where
  frameId : String
  frameName : String
  sheetIndex : Nat
deriving Repr, DecidableEq

/-- The main `for (const frame of frames)` loop of the current
`buildNodePatches`: skip frames with no sheet row; otherwise append the
frame's patches and record its `matchedMeta` entry. -/
def bnpLoop (sheetMap : SheetMap) : List Frame → List Patch × List Meta
  | [] => ([], [])
  | f :: fs =>
    let frameName := (jsTrim f.name)
    match lookupRow sheetMap frameName with
    | none => bnpLoop sheetMap fs
    | some row =>
      let sheetIndex := (sheetOrderGet sheetMap frameName).getD MAX_SAFE_INTEGER
      let rest := bnpLoop sheetMap fs
      (framePatches frameName row f.node ++ rest.1,
       ⟨f.id, frameName, sheetIndex⟩ :: rest.2)

/-- `matchedMeta.sort((a, b) => a.sheetIndex - b.sheetIndex)`: a stable
ascending sort by `sheetIndex` (ES2019 `Array.prototype.sort` is stable,
and the comparator is exact on safe integers), modelled by stable
insertion sort. -/
def insertMeta (x : Meta) : List Meta → List Meta
  | [] => [x]
  | y :: ys =>
    if x.sheetIndex ≤ y.sheetIndex then x :: y :: ys else y :: insertMeta x ys

def sortMeta : List Meta → List Meta
  | [] => []
  | x :: xs => insertMeta x (sortMeta xs)

/-- The current revision of `buildNodePatches` (figma.js): returns the
patch list and `matchedFrameIds`, the matched frames' ids sorted by sheet
order. -/
def buildNodePatches (frames : List Frame) (sheetMap : SheetMap) :
    List Patch × List String :=
  let r := bnpLoop sheetMap frames
  (r.1, (sortMeta r.2).map Meta.frameId)

/-! ## The earlier revision of `buildNodePatches` (patch list only),
embedded independently. -/

/-- The static `FIELD_MAP` of the earlier `buildNodePatches` revision. -/
def FIELD_MAP_prev : List (String × String) :=
  [("#product_name", "productName"),
   ("#shipping_fee", "shippingFee"),
   ("#supply_price_vat", "supplyPriceVat"),
   ("#group_price", "groupPrice"),
   ("#online_price", "onlinePrice")]

/-- Callback body of the earlier revision's walk. -/
def textPatchPrev (frameName : String) (row : Row) (n : Node) : Option Patch :=
  if n.type ≠ "TEXT" then none
  else
    match assocLookup FIELD_MAP_prev n.name with
    | none => none
    | some fieldName =>
      match row.get fieldName with
      | none => none
      | some v => some ⟨n.id, frameName, n.name, v⟩

def framePatchesPrev (frameName : String) (row : Row) (root : Node) : List Patch :=
  walkNodesCb
    (fun acc n =>
      match textPatchPrev frameName row n with
      | some p => acc ++ [p]
      | none => acc)
    [] root

/-- The earlier revision's frame loop: match by trimmed name, walk, push
patches; no ordering metadata. -/
def bnpLoopPrev (sheetMap : SheetMap) : List Frame → List Patch
  | [] => []
  | f :: fs =>
    let frameName := (jsTrim f.name)
    match lookupRow sheetMap frameName with
    | none => bnpLoopPrev sheetMap fs
    | some row => framePatchesPrev frameName row f.node ++ bnpLoopPrev sheetMap fs

/-- The earlier revision of `buildNodePatches`: patch array only. -/
def buildNodePatchesPrev (frames : List Frame) (sheetMap : SheetMap) :
    List Patch :=
  bnpLoopPrev sheetMap frames

/-! ## Frame extraction (`getFrames`) -/

def frameOfNode (n : Node) : Frame := ⟨n.id, n.name, n⟩

/-- `findFramesInPage` / the unscoped scan: walk a subtree and push every
node of type FRAME as `{id, name, node}`. -/
def framesInSubtree (root : Node) : List Frame :=
  walkNodesCb
    (fun acc n => if n.type = "FRAME" then acc ++ [frameOfNode n] else acc)
    [] root

/-- `getFrames(fileJson)`, taking `fileJson.document` and
`config.figmaTargetPage`.  The config layer returns `null` for an unset or
empty `FIGMA_TARGET_PAGE` (`getEnv` uses `value || null`), so the JS
truthiness test `if (targetPageName)` is exactly `isSome`.  With a target:
walk the whole document, and for every CANVAS node whose name equals the
target exactly, mark it found and collect the frames of its subtree; if no
such page was found, fall back to the unscoped full scan. -/
def getFrames (document : Node) (targetPageName : Option String) : List Frame :=
  match targetPageName with
  | some target =>
    let scan := walkNodesCb
      (fun acc n =>
        if n.type = "CANVAS" ∧ n.name = target then
          (true, acc.2 ++ framesInSubtree n)
        else acc)
      ((false, []) : Bool × List Frame) document
    if scan.1 then scan.2 else framesInSubtree document
  | none => framesInSubtree document

/-! ## PDF-export assembly (server.js, POST /figma-export-pdf) -/

def COVER_FRAME_NAME : String := "0-0"
def TOC_FRAME_NAME : String := "0-1"
def BACK_FRAME_NAME : String := "0-11"

/-- `findFrameIdByName` of server.js: first frame whose trimmed name
equals `name`, else `null`. -/
def findFrameIdByName (frames : List Frame) (name : String) : Option String :=
  match frames.find? (fun fr => (jsTrim fr.name) == name) with
  | some f => some f.id
  | none => none

/-- `if (id) orderedIds.push(id)`: a JS truthiness-guarded push — `null`
and the empty string are falsy. -/
def pushTruthy (acc : List String) : Option String → List String
  | some s => if s = "" then acc else acc ++ [s]
  | none => acc

/-- `Array.from(new Set(l))`: deduplication keeping each element's first
occurrence, in order. -/
def dedupFirstGo (seen : List String) : List String → List String
  | [] => []
  | x :: xs =>
    if x ∈ seen then dedupFirstGo seen xs
    else x :: dedupFirstGo (x :: seen) xs

def dedupFirst (l : List String) : List String := dedupFirstGo [] l

/-- The frame-ordering steps of POST /figma-export-pdf: locate the
cover/toc/back frame ids, build
`[coverId?, tocId?, ...requestedIds, backId?]` with truthiness-guarded
pushes for the special slots, then deduplicate via `Set`. -/
def assembleOrder (requestedIds : List String) (frames : List Frame)
    (coverName tocName backName : String) : List String :=
  let coverId := findFrameIdByName frames coverName
  let tocId := findFrameIdByName frames tocName
  let backId := findFrameIdByName frames backName
  let orderedIds := pushTruthy (pushTruthy [] coverId) tocId ++ requestedIds
  dedupFirst (pushTruthy orderedIds backId)

/-- The assembly as the claim words it: each located special id (the
result of `findFrameIdByName`, regardless of JS truthiness) contributes
one element, concatenated around the requested ids, then deduplicated
keeping first occurrences. -/
def assembleOrderClaimed (requestedIds : List String) (frames : List Frame)
    (coverName tocName backName : String) : List String :=
  dedupFirst
    ((findFrameIdByName frames coverName).toList ++
     (findFrameIdByName frames tocName).toList ++
     requestedIds ++
     (findFrameIdByName frames backName).toList)

/-! ## Characterization lemmas -/

theorem walkListCb_eq_foldl_walk {σ : Type u} (cb : σ → Node → σ) :
    ∀ (cs : List Node) (s : σ),
      walkListCb cb s cs = cs.foldl (fun a c => walkNodesCb cb a c) s := by
  intro cs
  induction cs with
  | nil => intro s; rfl
  | cons c cs ih => intro s; rw [walkListCb, List.foldl_cons, ih]

theorem foldl_push_filterMap {α β : Type} (g : List β → α → List β)
    (h : α → Option β) (hg : ∀ acc a, g acc a = acc ++ (h a).toList) :
    ∀ (l : List α) (s : List β), l.foldl g s = s ++ l.filterMap h := by
  intro l
  induction l with
  | nil => intro s; simp
  | cons a l ih =>
    intro s
    rw [List.foldl_cons, ih, hg]
    cases ha : h a <;> simp [List.filterMap_cons, ha]

theorem framePatches_eq_filterMap (frameName : String) (row : Row) (root : Node) :
    framePatches frameName row root = (preorderOf root).filterMap (textPatch frameName row) := by
  rw [framePatches, walkNodesCb_eq_foldl,
    foldl_push_filterMap _ (textPatch frameName row)
      (fun acc a => by cases textPatch frameName row a <;> simp [Option.toList]),
    List.nil_append]

theorem textPatch_eq_some_iff (frameName : String) (row : Row) (n : Node) (p : Patch) :
    textPatch frameName row n = some p ↔
      n.type = "TEXT" ∧
      ∃ fieldName, assocLookup FIELD_MAP n.name = some fieldName ∧
        ∃ v, row.get fieldName = some v ∧ p = ⟨n.id, frameName, n.name, v⟩ := by
  rw [textPatch]
  by_cases ht : n.type = "TEXT"
  · rw [if_neg (by simp [ht])]
    cases hfd : assocLookup FIELD_MAP n.name with
    | none => simp [ht, hfd]
    | some fieldName =>
      cases hv : row.get fieldName with
      | none => simp [ht, hfd, hv]
      | some v =>
        simp only [hv, ht, hfd, Option.some.injEq, true_and, exists_eq_left']
        exact eq_comm
  · rw [if_pos (by simp [ht])]
    simp [ht]

/-- The patch contribution of one frame in the main loop. -/
def frameContrib (sheetMap : SheetMap) (f : Frame) : List Patch :=
  match lookupRow sheetMap (jsTrim f.name) with
  | some row => framePatches (jsTrim f.name) row f.node
  | none => []

/-- The `matchedMeta` contribution of one frame in the main loop. -/
def metaOf (sheetMap : SheetMap) (f : Frame) : Option Meta :=
  match lookupRow sheetMap (jsTrim f.name) with
  | some _ =>
    some ⟨f.id, (jsTrim f.name), (sheetOrderGet sheetMap (jsTrim f.name)).getD MAX_SAFE_INTEGER⟩
  | none => none

theorem bnpLoop_fst (sheetMap : SheetMap) :
    ∀ fs : List Frame, (bnpLoop sheetMap fs).1 = fs.flatMap (frameContrib sheetMap) := by
  intro fs
  induction fs with
  | nil => rfl
  | cons f fs ih =>
    cases h : lookupRow sheetMap (jsTrim f.name) <;>
      simp [bnpLoop, h, ih, frameContrib]

theorem bnpLoop_snd (sheetMap : SheetMap) :
    ∀ fs : List Frame, (bnpLoop sheetMap fs).2 = fs.filterMap (metaOf sheetMap) := by
  intro fs
  induction fs with
  | nil => rfl
  | cons f fs ih =>
    cases h : lookupRow sheetMap (jsTrim f.name) <;>
      simp [bnpLoop, h, ih, metaOf]

/-! ## Sorting lemmas for `sortMeta` -/

theorem mem_insertMeta (a x : Meta) :
    ∀ l : List Meta, a ∈ insertMeta x l ↔ a = x ∨ a ∈ l := by
  intro l
  induction l with
  | nil => simp [insertMeta]
  | cons y ys ih =>
    rw [insertMeta]
    by_cases h : x.sheetIndex ≤ y.sheetIndex
    · simp [h]
    · simp only [if_neg h, List.mem_cons, ih]
      tauto

theorem insertMeta_pairwise (x : Meta) (l : List Meta)
    (hl : l.Pairwise (fun a b => a.sheetIndex ≤ b.sheetIndex)) :
    (insertMeta x l).Pairwise (fun a b => a.sheetIndex ≤ b.sheetIndex) := by
  induction l with
  | nil => simp [insertMeta]
  | cons y ys ih =>
    rw [insertMeta]
    rcases List.pairwise_cons.mp hl with ⟨hy, hys⟩
    by_cases h : x.sheetIndex ≤ y.sheetIndex
    · rw [if_pos h]
      refine List.pairwise_cons.mpr ⟨?_, hl⟩
      intro b hb
      rcases List.mem_cons.mp hb with rfl | hb
      · exact h
      · exact le_trans h (hy b hb)
    · rw [if_neg h]
      refine List.pairwise_cons.mpr ⟨?_, ih hys⟩
      intro b hb
      rcases (mem_insertMeta b x ys).mp hb with rfl | hb
      · exact le_of_lt (lt_of_not_le h)
      · exact hy b hb

theorem sortMeta_pairwise (l : List Meta) :
    (sortMeta l).Pairwise (fun a b => a.sheetIndex ≤ b.sheetIndex) := by
  induction l with
  | nil => exact List.Pairwise.nil
  | cons x xs ih => exact insertMeta_pairwise x (sortMeta xs) ih

theorem filter_insertMeta (r : Nat) (x : Meta) :
    ∀ l : List Meta,
      (insertMeta x l).filter (fun m => m.sheetIndex == r) =
        if x.sheetIndex = r then x :: l.filter (fun m => m.sheetIndex == r)
        else l.filter (fun m => m.sheetIndex == r) := by
  intro l
  induction l with
  | nil =>
    by_cases hx : x.sheetIndex = r <;> simp [insertMeta, List.filter_cons, hx]
  | cons y ys ih =>
    rw [insertMeta]
    by_cases h : x.sheetIndex ≤ y.sheetIndex
    · rw [if_pos h]
      by_cases hx : x.sheetIndex = r <;> simp [List.filter_cons, hx]
    · rw [if_neg h]
      by_cases hx : x.sheetIndex = r
      · have hy : ¬ y.sheetIndex = r := by
          intro hy
          exact h (le_of_eq (hx.trans hy.symm))
        simp [List.filter_cons, hx, hy, ih]
      · by_cases hy : y.sheetIndex = r <;> simp [List.filter_cons, hx, hy, ih]

theorem sortMeta_stable (r : Nat) :
    ∀ l : List Meta,
      (sortMeta l).filter (fun m => m.sheetIndex == r) =
        l.filter (fun m => m.sheetIndex == r) := by
  intro l
  induction l with
  | nil => rfl
  | cons x xs ih =>
    rw [sortMeta, filter_insertMeta, ih]
    by_cases hx : x.sheetIndex = r <;> simp [List.filter_cons, hx]

theorem insertMeta_perm (x : Meta) (l : List Meta) :
    (insertMeta x l).Perm (x :: l) := by
  induction l with
  | nil => simp [insertMeta]
  | cons y ys ih =>
    rw [insertMeta]
    by_cases h : x.sheetIndex ≤ y.sheetIndex
    · rw [if_pos h]
    · rw [if_neg h]
      exact (ih.cons y).trans (List.Perm.swap x y ys)

theorem sortMeta_perm (l : List Meta) : (sortMeta l).Perm l := by
  induction l with
  | nil => exact List.Perm.refl []
  | cons x xs ih => exact (insertMeta_perm x (sortMeta xs)).trans (ih.cons x)

/-! ## Deduplication lemmas (`Array.from(new Set(...))`) -/

theorem mem_dedupFirstGo (x : String) :
    ∀ (l : List String) (seen : List String),
      x ∈ dedupFirstGo seen l ↔ x ∈ l ∧ x ∉ seen := by
  intro l
  induction l with
  | nil => intro seen; simp [dedupFirstGo]
  | cons y ys ih =>
    intro seen
    rw [dedupFirstGo]
    by_cases hy : y ∈ seen
    · rw [if_pos hy, ih]
      constructor
      · rintro ⟨hx, hns⟩
        exact ⟨List.mem_cons_of_mem y hx, hns⟩
      · rintro ⟨hx, hns⟩
        rcases List.mem_cons.mp hx with rfl | hx
        · exact absurd hy hns
        · exact ⟨hx, hns⟩
    · rw [if_neg hy]
      simp only [List.mem_cons, ih]
      by_cases hxy : x = y
      · subst hxy; tauto
      · tauto

theorem nodup_dedupFirstGo :
    ∀ (l : List String) (seen : List String), (dedupFirstGo seen l).Nodup := by
  intro l
  induction l with
  | nil => intro seen; exact List.nodup_nil
  | cons y ys ih =>
    intro seen
    rw [dedupFirstGo]
    by_cases hy : y ∈ seen
    · rw [if_pos hy]; exact ih seen
    · rw [if_neg hy]
      refine List.nodup_cons.mpr ⟨?_, ih (y :: seen)⟩
      intro hmem
      exact ((mem_dedupFirstGo y ys (y :: seen)).mp hmem).2 (List.mem_cons_self y seen)

theorem dedupFirst_nodup (l : List String) : (dedupFirst l).Nodup :=
  nodup_dedupFirstGo l []

theorem mem_dedupFirst (x : String) (l : List String) :
    x ∈ dedupFirst l ↔ x ∈ l := by
  rw [dedupFirst, mem_dedupFirstGo]
  simp

/-! ## Claim theorems -/

theorem mem_frameContrib (sheetMap : SheetMap) (f : Frame) (p : Patch) :
    p ∈ frameContrib sheetMap f ↔
      ∃ row, lookupRow sheetMap (jsTrim f.name) = some row ∧
        p ∈ (preorderOf f.node).filterMap (textPatch (jsTrim f.name) row) := by
  rw [frameContrib]
  cases h : lookupRow sheetMap (jsTrim f.name) <;>
    simp [h, framePatches_eq_filterMap]

/-- C1: a patch is appended by `buildNodePatches` (current revision) iff
the enclosing frame's trimmed name has a row in the sheet map, the visited
node has type TEXT with a name that is a key of `FIELD_MAP`, and the
mapped field is defined on the matched row; each emitted patch carries
the node's id, the frame's trimmed name, the node's name, and the row's
value for the mapped field. -/
theorem buildNodePatches_patch_iff (frames : List Frame) (sheetMap : SheetMap)
    (p : Patch) :
    p ∈ (buildNodePatches frames sheetMap).1 ↔
      ∃ f ∈ frames, ∃ row, lookupRow sheetMap (jsTrim f.name) = some row ∧
        ∃ n ∈ preorderOf f.node, n.type = "TEXT" ∧
          ∃ fieldName, assocLookup FIELD_MAP n.name = some fieldName ∧
            ∃ v, row.get fieldName = some v ∧
              p = ⟨n.id, (jsTrim f.name), n.name, v⟩ := by
  have h1 : (buildNodePatches frames sheetMap).1 = (bnpLoop sheetMap frames).1 := rfl
  rw [h1, bnpLoop_fst]
  simp only [List.mem_flatMap, mem_frameContrib, List.mem_filterMap,
    textPatch_eq_some_iff]

/-- C2: the `matchedFrameIds` of `buildNodePatches` (current revision)
are the matched-frame metadata — collected in input frame order — sorted
ascending by `sheetIndex` with a stable sort: the sorted list is pairwise
non-decreasing in `sheetIndex`, and for every rank value the sublist of
entries with that rank is unchanged from its input-order version. -/
theorem buildNodePatches_order_sorted_stable (frames : List Frame)
    (sheetMap : SheetMap) :
    (buildNodePatches frames sheetMap).2
        = (sortMeta ((bnpLoop sheetMap frames).2)).map Meta.frameId ∧
    (bnpLoop sheetMap frames).2 = frames.filterMap (metaOf sheetMap) ∧
    (sortMeta ((bnpLoop sheetMap frames).2)).Pairwise
        (fun a b => a.sheetIndex ≤ b.sheetIndex) ∧
    ∀ r : Nat,
      (sortMeta ((bnpLoop sheetMap frames).2)).filter (fun m => m.sheetIndex == r)
        = ((bnpLoop sheetMap frames).2).filter (fun m => m.sheetIndex == r) :=
  ⟨rfl, bnpLoop_snd sheetMap frames, sortMeta_pairwise _,
    fun r => sortMeta_stable r _⟩

theorem bnpLoopPrev_eq_fst (sheetMap : SheetMap) :
    ∀ fs : List Frame, bnpLoopPrev sheetMap fs = (bnpLoop sheetMap fs).1 := by
  intro fs
  have hfp : framePatchesPrev = framePatches := rfl
  induction fs with
  | nil => rfl
  | cons f fs ih =>
    cases h : lookupRow sheetMap (jsTrim f.name) <;>
      simp [bnpLoopPrev, bnpLoop, h, ih, hfp]

/-- C6: the earlier revision of `buildNodePatches` (patch array only)
produces exactly the patch list of the current revision, element for
element and in order. -/
theorem buildNodePatchesPrev_eq_current (frames : List Frame)
    (sheetMap : SheetMap) :
    buildNodePatchesPrev frames sheetMap = (buildNodePatches frames sheetMap).1 :=
  bnpLoopPrev_eq_fst sheetMap frames

/-- C8: `walkNodes` visits in pre-order — a null root is a no-op; on a
non-null node the callback runs on the node itself first and then the walk
recurses into each child in the children list's original order; running
the callback traversal equals folding the callback over the pre-order
trace, and the trace is the node followed by its children's traces in
order. -/
theorem walkNodes_preorder_contract :
    (∀ (σ : Type) (cb : σ → Node → σ) (s : σ), walkNodesOpt cb s none = s) ∧
    (∀ (σ : Type) (cb : σ → Node → σ) (s : σ) (i t nm : String) (cs : List Node),
        walkNodesOpt cb s (some (Node.mk i t nm cs)) =
          cs.foldl (fun a c => walkNodesCb cb a c) (cb s (Node.mk i t nm cs))) ∧
    (∀ (σ : Type) (cb : σ → Node → σ) (s : σ) (n : Node),
        walkNodesCb cb s n = (preorderOf n).foldl cb s) ∧
    (∀ (i t nm : String) (cs : List Node),
        preorderOf (Node.mk i t nm cs) = Node.mk i t nm cs :: cs.flatMap preorderOf) := by
  refine ⟨fun σ cb s => rfl, ?_, ?_, ?_⟩
  · intro σ cb s i t nm cs
    rw [walkNodesOpt, walkNodesCb, walkListCb_eq_foldl_walk]
  · intro σ cb s n
    exact walkNodesCb_eq_foldl cb s n
  · intro i t nm cs
    rw [preorderOf, preorderList_eq_flatMap]

theorem foldl_const_of {σ α : Type} (f : σ → α → σ) (l : List α)
    (h : ∀ a ∈ l, ∀ s, f s a = s) : ∀ s, l.foldl f s = s := by
  induction l with
  | nil => intro s; rfl
  | cons a l ih =>
    intro s
    rw [List.foldl_cons, h a (List.mem_cons_self a l)]
    exact ih (fun b hb => h b (List.mem_cons_of_mem a hb)) s

theorem scan_no_canvas (document : Node) (target : String)
    (h : ∀ n ∈ preorderOf document, ¬(n.type = "CANVAS" ∧ n.name = target)) :
    walkNodesCb
      (fun acc n =>
        if n.type = "CANVAS" ∧ n.name = target then
          (true, acc.2 ++ framesInSubtree n)
        else acc)
      ((false, []) : Bool × List Frame) document = (false, []) := by
  rw [walkNodesCb_eq_foldl]
  apply foldl_const_of
  intro n hn s
  exact if_neg (h n hn)

/-- C7: when a page scope is configured but no CANVAS node with exactly
that name exists anywhere in the document, `getFrames` falls back to, and
returns exactly, the unscoped full-tree pre-order frame scan. -/
theorem getFrames_missing_scope_fallback (document : Node) (target : String)
    (h : ∀ n ∈ preorderOf document, ¬(n.type = "CANVAS" ∧ n.name = target)) :
    getFrames document (some target) = getFrames document none := by
  simp only [getFrames]
  rw [scan_no_canvas document target h]
  simp

/-- Witness for C7 at a concrete document: a CANVAS page named "Page1"
holding one frame, scoped to the missing page name "Missing". -/
theorem getFrames_missing_scope_fallback_witness :
    (∀ n ∈ preorderOf (Node.mk "0:0" "DOCUMENT" "Document"
        [Node.mk "0:1" "CANVAS" "Page1"
          [Node.mk "1:1" "FRAME" "ProductA" []]]),
      ¬(n.type = "CANVAS" ∧ n.name = "Missing")) ∧
    getFrames (Node.mk "0:0" "DOCUMENT" "Document"
        [Node.mk "0:1" "CANVAS" "Page1"
          [Node.mk "1:1" "FRAME" "ProductA" []]]) (some "Missing") =
      getFrames (Node.mk "0:0" "DOCUMENT" "Document"
        [Node.mk "0:1" "CANVAS" "Page1"
          [Node.mk "1:1" "FRAME" "ProductA" []]]) none :=
  ⟨by decide, getFrames_missing_scope_fallback _ _ (by decide)⟩

/-! ## C10: the sentinel branch of the rank lookup -/

theorem lookupRow_mem_sheetKeys (key : String) (row : Row) :
    ∀ m : SheetMap, lookupRow m key = some row → key ∈ sheetKeys m := by
  intro m
  induction m with
  | nil => intro h; cases h
  | cons kv rest ih =>
    intro h
    rw [lookupRow, assocLookup] at h
    by_cases hk : kv.1 = key
    · exact hk ▸ List.mem_cons_self _ _
    · rw [if_neg hk] at h
      exact List.mem_cons_of_mem _ (ih h)

theorem lastTrimIndex_isSome (name : String) :
    ∀ keys : List String, (∃ k ∈ keys, (jsTrim k) = name) →
      ∀ i : Nat, (lastTrimIndex keys i name).isSome := by
  intro keys
  induction keys with
  | nil => rintro ⟨k, hk, _⟩; cases hk
  | cons k ks ih =>
    rintro ⟨k', hk', htrim⟩ i
    rw [lastTrimIndex]
    cases hrec : lastTrimIndex ks (i + 1) name with
    | some j => rfl
    | none =>
      rcases List.mem_cons.mp hk' with rfl | hk'
      · rw [if_pos htrim]; rfl
      · have := ih ⟨k', hk', htrim⟩ (i + 1)
        rw [hrec] at this
        cases this

theorem lastTrimIndex_lt (name : String) :
    ∀ (keys : List String) (i j : Nat),
      lastTrimIndex keys i name = some j → j < i + keys.length := by
  intro keys
  induction keys with
  | nil => intro i j h; cases h
  | cons k ks ih =>
    intro i j h
    rw [lastTrimIndex] at h
    cases hrec : lastTrimIndex ks (i + 1) name with
    | some j2 =>
      rw [hrec] at h
      injection h with h
      have h2 := ih (i + 1) j2 hrec
      simp only [List.length_cons]
      omega
    | none =>
      rw [hrec] at h
      by_cases hk : (jsTrim k) = name
      · rw [if_pos hk] at h
        injection h with h
        simp only [List.length_cons]
        omega
      · rw [if_neg hk] at h
        cases h

theorem metaOf_eq_some_iff (sheetMap : SheetMap) (f : Frame) (mm : Meta) :
    metaOf sheetMap f = some mm ↔
      (lookupRow sheetMap (jsTrim f.name)).isSome ∧
      mm = ⟨f.id, (jsTrim f.name),
        (sheetOrderGet sheetMap (jsTrim f.name)).getD MAX_SAFE_INTEGER⟩ := by
  rw [metaOf]
  cases h : lookupRow sheetMap (jsTrim f.name) <;> simp [h, eq_comm]

/-- C10: when every sheet-map key equals its own trim (keys are trimmed at
ingestion) and the map fits in the JS safe-integer range, the rank lookup
succeeds for every matched frame, so the `Number.MAX_SAFE_INTEGER`
sentinel branch is unreachable: every `matchedMeta` entry carries a rank
strictly below the sentinel. -/
theorem matched_rank_lt_sentinel (frames : List Frame) (sheetMap : SheetMap)
    (hkeys : ∀ k ∈ sheetKeys sheetMap, (jsTrim k) = k)
    (hlen : sheetMap.length ≤ MAX_SAFE_INTEGER) :
    ∀ m ∈ (bnpLoop sheetMap frames).2,
      (sheetOrderGet sheetMap m.frameName).isSome ∧
      m.sheetIndex < MAX_SAFE_INTEGER := by
  intro m hm
  rw [bnpLoop_snd] at hm
  rcases List.mem_filterMap.mp hm with ⟨f, _, hmf⟩
  rcases (metaOf_eq_some_iff sheetMap f m).mp hmf with ⟨hsome, rfl⟩
  rcases Option.isSome_iff_exists.mp hsome with ⟨row, hrow⟩
  have hkmem : (jsTrim f.name) ∈ sheetKeys sheetMap :=
    lookupRow_mem_sheetKeys _ row sheetMap hrow
  have horder : (sheetOrderGet sheetMap (jsTrim f.name)).isSome := by
    rw [sheetOrderGet]
    exact lastTrimIndex_isSome _ _ ⟨(jsTrim f.name), hkmem, hkeys _ hkmem⟩ 0
  rcases Option.isSome_iff_exists.mp horder with ⟨j, hj⟩
  have hjlt : j < sheetMap.length := by
    have := lastTrimIndex_lt _ _ 0 j (by rw [sheetOrderGet] at hj; exact hj)
    simpa [sheetKeys] using this
  refine ⟨horder, ?_⟩
  simp only [hj, Option.getD_some]
  exact Nat.lt_of_lt_of_le hjlt hlen

/-- Witness for C10 at a concrete input: one frame "A" matched against a
one-row sheet map with the already-trimmed key "A". -/
theorem matched_rank_lt_sentinel_witness :
    (∀ k ∈ sheetKeys [("A", Row.mk [("productName", "Widget")])], (jsTrim k) = k) ∧
    ([("A", Row.mk [("productName", "Widget")])] : SheetMap).length ≤ MAX_SAFE_INTEGER ∧
    ((sheetOrderGet [("A", Row.mk [("productName", "Widget")])]
        (Meta.frameName ⟨"F1", "A", 0⟩)).isSome ∧
      Meta.sheetIndex ⟨"F1", "A", 0⟩ < MAX_SAFE_INTEGER) :=
  ⟨by decide, by decide,
    matched_rank_lt_sentinel
      [⟨"F1", "A", Node.mk "N1" "FRAME" "A" []⟩]
      [("A", Row.mk [("productName", "Widget")])]
      (by decide) (by decide) ⟨"F1", "A", 0⟩ (by decide)⟩

/-! ## C4: matchedFrameIds duplicates and soundness -/

theorem filterMap_metaOf_map_id_sublist (sheetMap : SheetMap) :
    ∀ frames : List Frame,
      ((frames.filterMap (metaOf sheetMap)).map Meta.frameId).Sublist
        (frames.map Frame.id) := by
  intro frames
  induction frames with
  | nil => simp
  | cons f fs ih =>
    rw [List.filterMap_cons]
    cases h : metaOf sheetMap f with
    | none =>
      rw [List.map_cons]
      exact ih.cons f.id
    | some mm =>
      rcases (metaOf_eq_some_iff sheetMap f mm).mp h with ⟨_, rfl⟩
      rw [List.map_cons, List.map_cons]
      exact ih.cons₂ f.id

/-- C4 counterexample: `buildNodePatches` never deduplicates
`matchedFrameIds` — feeding the same matched frame entry twice yields its
id twice. -/
theorem matchedFrameIds_dup_counterexample :
    (buildNodePatches
        [⟨"F1", "A", Node.mk "N1" "FRAME" "A" []⟩,
         ⟨"F1", "A", Node.mk "N1" "FRAME" "A" []⟩]
        [("A", Row.mk [("productName", "Widget")])]).2 = ["F1", "F1"] ∧
    ¬ ((buildNodePatches
        [⟨"F1", "A", Node.mk "N1" "FRAME" "A" []⟩,
         ⟨"F1", "A", Node.mk "N1" "FRAME" "A" []⟩]
        [("A", Row.mk [("productName", "Widget")])]).2).Nodup :=
  ⟨by decide, by decide⟩

/-- C4 (amended): for every input, every id in `matchedFrameIds` is the
id of an input frame whose trimmed name is a key of the sheet map; and
when the input frames additionally carry pairwise-distinct ids,
`matchedFrameIds` contains no id twice. -/
theorem matchedFrameIds_nodup_sound (frames : List Frame) (sheetMap : SheetMap) :
    (∀ i ∈ (buildNodePatches frames sheetMap).2,
      ∃ f ∈ frames, f.id = i ∧ (jsTrim f.name) ∈ sheetKeys sheetMap) ∧
    ((frames.map Frame.id).Nodup →
      ((buildNodePatches frames sheetMap).2).Nodup) := by
  have h2 : (buildNodePatches frames sheetMap).2
      = (sortMeta ((bnpLoop sheetMap frames).2)).map Meta.frameId := rfl
  have hms : (bnpLoop sheetMap frames).2 = frames.filterMap (metaOf sheetMap) :=
    bnpLoop_snd sheetMap frames
  have hperm : ((sortMeta ((bnpLoop sheetMap frames).2)).map Meta.frameId).Perm
      (((bnpLoop sheetMap frames).2).map Meta.frameId) :=
    (sortMeta_perm _).map Meta.frameId
  constructor
  · intro i hi
    rw [h2] at hi
    have hi2 : i ∈ ((bnpLoop sheetMap frames).2).map Meta.frameId :=
      hperm.mem_iff.mp hi
    rw [hms] at hi2
    rcases List.mem_map.mp hi2 with ⟨mm, hmm, rfl⟩
    rcases List.mem_filterMap.mp hmm with ⟨f, hf, hmf⟩
    rcases (metaOf_eq_some_iff sheetMap f mm).mp hmf with ⟨hsome, rfl⟩
    rcases Option.isSome_iff_exists.mp hsome with ⟨row, hrow⟩
    exact ⟨f, hf, rfl, lookupRow_mem_sheetKeys _ row sheetMap hrow⟩
  · intro hids
    have hnd : (((bnpLoop sheetMap frames).2).map Meta.frameId).Nodup := by
      rw [hms]
      exact (filterMap_metaOf_map_id_sublist sheetMap frames).nodup hids
    rw [h2]
    exact hperm.symm.nodup hnd

/-- Witness for the amended C4 at a concrete input: two frames with
distinct ids, one matched — the soundness half instantiated at id "F1"
and the no-duplicates half with its distinct-ids hypothesis discharged. -/
theorem matchedFrameIds_nodup_sound_witness :
    (∃ f ∈ ([⟨"F1", "A", Node.mk "N1" "FRAME" "A" []⟩,
             ⟨"F2", "B", Node.mk "N2" "FRAME" "B" []⟩] : List Frame),
      f.id = "F1" ∧
      (jsTrim f.name) ∈ sheetKeys [("A", Row.mk [("productName", "Widget")])]) ∧
    (([⟨"F1", "A", Node.mk "N1" "FRAME" "A" []⟩,
       ⟨"F2", "B", Node.mk "N2" "FRAME" "B" []⟩] : List Frame).map Frame.id).Nodup ∧
    ((buildNodePatches
        [⟨"F1", "A", Node.mk "N1" "FRAME" "A" []⟩,
         ⟨"F2", "B", Node.mk "N2" "FRAME" "B" []⟩]
        [("A", Row.mk [("productName", "Widget")])]).2).Nodup :=
  ⟨(matchedFrameIds_nodup_sound
      [⟨"F1", "A", Node.mk "N1" "FRAME" "A" []⟩,
       ⟨"F2", "B", Node.mk "N2" "FRAME" "B" []⟩]
      [("A", Row.mk [("productName", "Widget")])]).1
      "F1" (by decide),
    by decide,
    (matchedFrameIds_nodup_sound
      [⟨"F1", "A", Node.mk "N1" "FRAME" "A" []⟩,
       ⟨"F2", "B", Node.mk "N2" "FRAME" "B" []⟩]
      [("A", Row.mk [("productName", "Widget")])]).2 (by decide)⟩

/-! ## C3: per-node patch uniqueness -/

theorem textPatch_nodeId (frameName : String) (row : Row) (n : Node) (p : Patch)
    (h : textPatch frameName row n = some p) : p.nodeId = n.id := by
  rcases (textPatch_eq_some_iff frameName row n p).mp h with ⟨_, _, _, _, _, rfl⟩
  rfl

theorem filterMap_textPatch_filter_nil (frameName : String) (row : Row)
    (i : String) :
    ∀ l : List Node, i ∉ l.map Node.id →
      ((l.filterMap (textPatch frameName row)).filter (fun p => p.nodeId == i)) = [] := by
  intro l
  induction l with
  | nil => intro _; rfl
  | cons a l ih =>
    intro h
    rw [List.map_cons] at h
    have hai : a.id ≠ i := fun hc => h (hc ▸ List.mem_cons_self _ _)
    have hrest : i ∉ l.map Node.id := fun hc => h (List.mem_cons_of_mem _ hc)
    rw [List.filterMap_cons]
    cases hp : textPatch frameName row a with
    | none => exact ih hrest
    | some p =>
      have hpid := textPatch_nodeId frameName row a p hp
      have hfalse : (p.nodeId == i) = false := by
        simp [hpid, hai]
      simp [List.filter_cons, hfalse, ih hrest]

theorem filterMap_textPatch_filter_single (frameName : String) (row : Row)
    (n : Node) (ht : n.type = "TEXT") (fieldName : String)
    (hfd : assocLookup FIELD_MAP n.name = some fieldName) (v : String)
    (hv : row.get fieldName = some v) :
    ∀ l : List Node, (l.map Node.id).Nodup → n ∈ l →
      ((l.filterMap (textPatch frameName row)).filter (fun p => p.nodeId == n.id))
        = [⟨n.id, frameName, n.name, v⟩] := by
  intro l
  induction l with
  | nil => intro _ h; cases h
  | cons a l ih =>
    intro hnd hn
    rw [List.map_cons] at hnd
    have hnd1 : a.id ∉ l.map Node.id := (List.nodup_cons.mp hnd).1
    have hnd2 : (l.map Node.id).Nodup := (List.nodup_cons.mp hnd).2
    rcases List.mem_cons.mp hn with rfl | hmem
    · have hpn : textPatch frameName row n = some ⟨n.id, frameName, n.name, v⟩ :=
        (textPatch_eq_some_iff frameName row n _).mpr
          ⟨ht, fieldName, hfd, v, hv, rfl⟩
      rw [List.filterMap_cons, hpn]
      have htrue : ((⟨n.id, frameName, n.name, v⟩ : Patch).nodeId == n.id) = true := by
        simp
      simp only [List.filter_cons, htrue, if_true]
      rw [filterMap_textPatch_filter_nil frameName row n.id l hnd1]
    · have hni : n.id ∈ l.map Node.id := List.mem_map.mpr ⟨n, hmem, rfl⟩
      rw [List.filterMap_cons]
      cases hp : textPatch frameName row a with
      | none => exact ih hnd2 hmem
      | some p =>
        have hpid := textPatch_nodeId frameName row a p hp
        have hfalse : (p.nodeId == n.id) = false := by
          have hne : a.id ≠ n.id := fun hc => hnd1 (hc ▸ hni)
          simp [hpid, hne]
        simp [List.filter_cons, hfalse, ih hnd2 hmem]

/-- The frames that matched a sheet row, in input order. -/
def matchedFrames (sheetMap : SheetMap) (frames : List Frame) : List Frame :=
  frames.filter (fun f => (lookupRow sheetMap (jsTrim f.name)).isSome)

/-- All node ids visited while walking the matched frames' subtrees. -/
def matchedWalkIds (sheetMap : SheetMap) (frames : List Frame) : List String :=
  (matchedFrames sheetMap frames).flatMap (fun f => (preorderOf f.node).map Node.id)

theorem matchedWalkIds_cons (sheetMap : SheetMap) (f : Frame) (fs : List Frame) :
    matchedWalkIds sheetMap (f :: fs)
      = (if (lookupRow sheetMap (jsTrim f.name)).isSome
          then (preorderOf f.node).map Node.id else [])
        ++ matchedWalkIds sheetMap fs := by
  rw [matchedWalkIds, matchedFrames, List.filter_cons]
  by_cases h : (lookupRow sheetMap (jsTrim f.name)).isSome <;>
    simp [h, matchedWalkIds, matchedFrames, List.flatMap_cons]

theorem frameContrib_filter_nil (sheetMap : SheetMap) (f : Frame) (i : String)
    (h : ∀ row, lookupRow sheetMap (jsTrim f.name) = some row →
      i ∉ (preorderOf f.node).map Node.id) :
    (frameContrib sheetMap f).filter (fun p => p.nodeId == i) = [] := by
  cases hr : lookupRow sheetMap (jsTrim f.name) with
  | none =>
    have hc : frameContrib sheetMap f = [] := by rw [frameContrib, hr]
    rw [hc]
    rfl
  | some row =>
    have hc : frameContrib sheetMap f = framePatches (jsTrim f.name) row f.node := by
      rw [frameContrib, hr]
    rw [hc, framePatches_eq_filterMap]
    exact filterMap_textPatch_filter_nil _ _ i _ (h row hr)

theorem flatMap_contrib_filter_nil (sheetMap : SheetMap) (i : String) :
    ∀ fs : List Frame, i ∉ matchedWalkIds sheetMap fs →
      ((fs.flatMap (frameContrib sheetMap)).filter (fun p => p.nodeId == i)) = [] := by
  intro fs
  induction fs with
  | nil => intro _; rfl
  | cons f fs ih =>
    intro h
    rw [matchedWalkIds_cons] at h
    rw [List.flatMap_cons, List.filter_append]
    have hhead : (frameContrib sheetMap f).filter (fun p => p.nodeId == i) = [] := by
      apply frameContrib_filter_nil
      intro row hrow hmem
      apply h
      apply List.mem_append_left
      rw [if_pos (by rw [hrow]; rfl)]
      exact hmem
    have htail : i ∉ matchedWalkIds sheetMap fs := fun hc =>
      h (List.mem_append_right _ hc)
    rw [hhead, ih htail, List.nil_append]

/-- C3 counterexample: with a matched frame nested inside another matched
frame, the shared TEXT node is visited by both walks, so two patches
reference the same node id — "exactly one patch per qualifying node"
fails. -/
theorem patch_unique_per_node_counterexample :
    (buildNodePatches
        [⟨"A1", "A", Node.mk "A1" "FRAME" "A"
            [Node.mk "B1" "FRAME" "B"
              [Node.mk "T1" "TEXT" "#product_name" []]]⟩,
         ⟨"B1", "B", Node.mk "B1" "FRAME" "B"
            [Node.mk "T1" "TEXT" "#product_name" []]⟩]
        [("A", Row.mk [("productName", "x")]),
         ("B", Row.mk [("productName", "y")])]).1
      = [⟨"T1", "A", "#product_name", "x"⟩, ⟨"T1", "B", "#product_name", "y"⟩] ∧
    ((buildNodePatches
        [⟨"A1", "A", Node.mk "A1" "FRAME" "A"
            [Node.mk "B1" "FRAME" "B"
              [Node.mk "T1" "TEXT" "#product_name" []]]⟩,
         ⟨"B1", "B", Node.mk "B1" "FRAME" "B"
            [Node.mk "T1" "TEXT" "#product_name" []]⟩]
        [("A", Row.mk [("productName", "x")]),
         ("B", Row.mk [("productName", "y")])]).1.filter
        (fun p => p.nodeId == "T1")).length = 2 :=
  ⟨by decide, by decide⟩

/-- C3 (amended): when no node id is visited twice across the matched
frames' walks (matched subtrees are disjoint and internally duplicate-free),
each qualifying TEXT node yields exactly one patch, and no other patch in
the output references its id. -/
theorem patch_unique_per_node (frames : List Frame) (sheetMap : SheetMap)
    (hnodup : (matchedWalkIds sheetMap frames).Nodup)
    (f : Frame) (hf : f ∈ frames) (row : Row)
    (hrow : lookupRow sheetMap (jsTrim f.name) = some row)
    (n : Node) (hn : n ∈ preorderOf f.node) (ht : n.type = "TEXT")
    (fieldName : String) (hfd : assocLookup FIELD_MAP n.name = some fieldName)
    (v : String) (hv : row.get fieldName = some v) :
    ((buildNodePatches frames sheetMap).1).filter (fun p => p.nodeId == n.id)
      = [⟨n.id, (jsTrim f.name), n.name, v⟩] := by
  have h1 : (buildNodePatches frames sheetMap).1
      = frames.flatMap (frameContrib sheetMap) := bnpLoop_fst sheetMap frames
  rw [h1]
  clear h1
  induction frames with
  | nil => cases hf
  | cons f0 fs ih =>
    rw [List.flatMap_cons, List.filter_append]
    rw [matchedWalkIds_cons] at hnodup
    rcases List.mem_cons.mp hf with rfl | hf2
    · have hisSome : (lookupRow sheetMap (jsTrim f.name)).isSome := by
        rw [hrow]; rfl
      rw [if_pos hisSome] at hnodup
      have hnd := hnodup.of_append_left
      have hdisj := List.disjoint_of_nodup_append hnodup
      have hhead : (frameContrib sheetMap f).filter (fun p => p.nodeId == n.id)
          = [⟨n.id, (jsTrim f.name), n.name, v⟩] := by
        have hc : frameContrib sheetMap f = framePatches (jsTrim f.name) row f.node := by
          rw [frameContrib, hrow]
        rw [hc, framePatches_eq_filterMap]
        exact filterMap_textPatch_filter_single _ _ n ht fieldName hfd v hv _ hnd hn
      have hni : n.id ∈ (preorderOf f.node).map Node.id :=
        List.mem_map.mpr ⟨n, hn, rfl⟩
      have htailnil :
          ((fs.flatMap (frameContrib sheetMap)).filter (fun p => p.nodeId == n.id)) = [] :=
        flatMap_contrib_filter_nil sheetMap n.id fs (fun hc => hdisj hni hc)
      rw [hhead, htailnil, List.append_nil]
    · have hnimem : n.id ∈ matchedWalkIds sheetMap fs := by
        rw [matchedWalkIds]
        refine List.mem_flatMap.mpr ⟨f, ?_, List.mem_map.mpr ⟨n, hn, rfl⟩⟩
        rw [matchedFrames]
        exact List.mem_filter.mpr ⟨hf2, by rw [hrow]; rfl⟩
      have hheadnil : (frameContrib sheetMap f0).filter (fun p => p.nodeId == n.id) = [] := by
        apply frameContrib_filter_nil
        intro row0 hrow0 hmem
        rw [if_pos (by rw [hrow0]; rfl)] at hnodup
        exact (List.disjoint_of_nodup_append hnodup) hmem hnimem
      have htail := ih hnodup.of_append_right hf2
      rw [hheadnil, htail, List.nil_append]

/-- Witness for the amended C3 at a concrete input: one matched frame
holding one mapped TEXT leaf, all walked ids distinct. -/
theorem patch_unique_per_node_witness :
    (matchedWalkIds [("A", Row.mk [("productName", "W")])]
        [⟨"F1", "A", Node.mk "N1" "FRAME" "A"
            [Node.mk "T1" "TEXT" "#product_name" []]⟩]).Nodup ∧
    lookupRow [("A", Row.mk [("productName", "W")])] (jsTrim "A")
      = some (Row.mk [("productName", "W")]) ∧
    ((buildNodePatches
        [⟨"F1", "A", Node.mk "N1" "FRAME" "A"
            [Node.mk "T1" "TEXT" "#product_name" []]⟩]
        [("A", Row.mk [("productName", "W")])]).1).filter
        (fun p => p.nodeId == "T1")
      = [⟨"T1", jsTrim "A", "#product_name", "W"⟩] :=
  ⟨by decide, by decide,
    patch_unique_per_node
      [⟨"F1", "A", Node.mk "N1" "FRAME" "A"
          [Node.mk "T1" "TEXT" "#product_name" []]⟩]
      [("A", Row.mk [("productName", "W")])]
      (by decide)
      ⟨"F1", "A", Node.mk "N1" "FRAME" "A"
          [Node.mk "T1" "TEXT" "#product_name" []]⟩
      (List.mem_singleton.mpr rfl)
      (Row.mk [("productName", "W")]) (by decide)
      (Node.mk "T1" "TEXT" "#product_name" [])
      (List.mem_cons_of_mem _ (List.mem_cons_self _ _))
      rfl "productName" rfl "W" rfl⟩

/-! ## C5: PDF-export assembly -/

/-- The contribution of a truthiness-guarded push as a list: a located
non-empty id yields one element, `null` or `""` yields none. -/
def truthyList : Option String → List String
  | some s => if s = "" then [] else [s]
  | none => []

theorem pushTruthy_eq_append (acc : List String) (o : Option String) :
    pushTruthy acc o = acc ++ truthyList o := by
  cases o with
  | none => simp [pushTruthy, truthyList]
  | some s =>
    by_cases h : s = "" <;> simp [pushTruthy, truthyList, h]

theorem dedupFirst_cons (x : String) (l : List String) :
    dedupFirst (x :: l) = x :: dedupFirstGo [x] l := by
  rw [dedupFirst, dedupFirstGo]
  simp

theorem findFrameIdByName_none (frames : List Frame) (name : String)
    (h : ∀ fr ∈ frames, (jsTrim fr.name) ≠ name) :
    findFrameIdByName frames name = none := by
  rw [findFrameIdByName]
  cases hfind : frames.find? (fun fr => (jsTrim fr.name) == name) with
  | none => rfl
  | some fr =>
    have h1 : (jsTrim fr.name) = name := by
      simpa using List.find?_some hfind
    exact absurd h1 (h fr (List.mem_of_find?_eq_some hfind))

/-- C5 (amended): the assembly result is the deduplication (keeping first
occurrences) of cover, toc, requested and back contributions, where a
special slot contributes its located id only when that id is non-empty
(the JS truthiness guard `if (coverId)`); the result has no duplicates;
with a located non-empty cover id the result starts with it and contains
it exactly once — also when the requested ids already contain it; and a
special name matching no frame's trimmed name locates nothing. -/
theorem assembleOrder_dedup_spec (requestedIds : List String)
    (frames : List Frame) (coverName tocName backName : String) :
    assembleOrder requestedIds frames coverName tocName backName =
      dedupFirst (truthyList (findFrameIdByName frames coverName) ++
        (truthyList (findFrameIdByName frames tocName) ++
          (requestedIds ++ truthyList (findFrameIdByName frames backName)))) ∧
    (assembleOrder requestedIds frames coverName tocName backName).Nodup ∧
    (∀ cid, findFrameIdByName frames coverName = some cid → cid ≠ "" →
      (assembleOrder requestedIds frames coverName tocName backName).head?
          = some cid ∧
      (assembleOrder requestedIds frames coverName tocName backName).count cid
          = 1) ∧
    (∀ nm, (∀ fr ∈ frames, (jsTrim fr.name) ≠ nm) →
      findFrameIdByName frames nm = none) := by
  have hrepr : assembleOrder requestedIds frames coverName tocName backName =
      dedupFirst (truthyList (findFrameIdByName frames coverName) ++
        (truthyList (findFrameIdByName frames tocName) ++
          (requestedIds ++ truthyList (findFrameIdByName frames backName)))) := by
    rw [assembleOrder]
    simp only [pushTruthy_eq_append, List.nil_append, List.append_assoc]
  refine ⟨hrepr, ?_, ?_, fun nm h => findFrameIdByName_none frames nm h⟩
  · rw [hrepr]
    exact dedupFirst_nodup _
  · intro cid hcid hne
    have htl : truthyList (findFrameIdByName frames coverName) = [cid] := by
      rw [hcid, truthyList, if_neg hne]
    rw [hrepr, htl, List.singleton_append, dedupFirst_cons]
    refine ⟨rfl, ?_⟩
    have hnd : (cid :: dedupFirstGo [cid]
        (truthyList (findFrameIdByName frames tocName) ++
          (requestedIds ++ truthyList (findFrameIdByName frames backName)))).Nodup := by
      rw [← dedupFirst_cons, ← List.singleton_append, ← htl, ← hrepr]
      rw [hrepr]
      exact dedupFirst_nodup _
    exact List.count_eq_one_of_mem hnd (List.mem_cons_self _ _)

/-- Witness for the amended C5 at a concrete input: cover and back frames
located, the cover id also among the requested ids. -/
theorem assembleOrder_dedup_spec_witness :
    assembleOrder ["C1", "x"]
        [⟨"C1", "0-0", Node.mk "C1" "FRAME" "0-0" []⟩,
         ⟨"B1", "0-11", Node.mk "B1" "FRAME" "0-11" []⟩]
        "0-0" "0-1" "0-11" = ["C1", "x", "B1"] ∧
    (assembleOrder ["C1", "x"]
        [⟨"C1", "0-0", Node.mk "C1" "FRAME" "0-0" []⟩,
         ⟨"B1", "0-11", Node.mk "B1" "FRAME" "0-11" []⟩]
        "0-0" "0-1" "0-11").head? = some "C1" ∧
    (assembleOrder ["C1", "x"]
        [⟨"C1", "0-0", Node.mk "C1" "FRAME" "0-0" []⟩,
         ⟨"B1", "0-11", Node.mk "B1" "FRAME" "0-11" []⟩]
        "0-0" "0-1" "0-11").count "C1" = 1 :=
  ⟨by decide,
    ((assembleOrder_dedup_spec ["C1", "x"]
      [⟨"C1", "0-0", Node.mk "C1" "FRAME" "0-0" []⟩,
       ⟨"B1", "0-11", Node.mk "B1" "FRAME" "0-11" []⟩]
      "0-0" "0-1" "0-11").2.2.1 "C1" (by decide) (by decide)).1,
    ((assembleOrder_dedup_spec ["C1", "x"]
      [⟨"C1", "0-0", Node.mk "C1" "FRAME" "0-0" []⟩,
       ⟨"B1", "0-11", Node.mk "B1" "FRAME" "0-11" []⟩]
      "0-0" "0-1" "0-11").2.2.1 "C1" (by decide) (by decide)).2⟩

/-- C5 counterexample: a cover frame whose id is the empty string is
located by `findFrameIdByName`, but the JS truthiness guard drops it, so
the result is not the claimed dedup of `[coverId] ++ ... ++ requestedIds
++ ...`. -/
theorem assembleOrder_claim_counterexample :
    findFrameIdByName [⟨"", "0-0", Node.mk "" "FRAME" "0-0" []⟩] "0-0"
      = some "" ∧
    assembleOrder ["x"] [⟨"", "0-0", Node.mk "" "FRAME" "0-0" []⟩]
      "0-0" "0-1" "0-11" = ["x"] ∧
    assembleOrderClaimed ["x"] [⟨"", "0-0", Node.mk "" "FRAME" "0-0" []⟩]
      "0-0" "0-1" "0-11" = ["", "x"] ∧
    assembleOrder ["x"] [⟨"", "0-0", Node.mk "" "FRAME" "0-0" []⟩]
        "0-0" "0-1" "0-11"
      ≠ assembleOrderClaimed ["x"] [⟨"", "0-0", Node.mk "" "FRAME" "0-0" []⟩]
        "0-0" "0-1" "0-11" :=
  ⟨by decide, by decide, by decide, by decide⟩
